import Mathlib

/-!
# Verification of the kmap ordered map and its binary persistence format

Shallow embedding of the Go package `kmap` (files `list.go`, `orderedmap.go`,
`persist.go`).  Go byte strings are modelled as lists of byte values
(`List Nat`, each element `< 256` in well-formed data), Go `int` (64-bit) as
unbounded `Int` with explicit two's-complement reduction at the serialization
boundary, and the generic value type `V` of `OrderedMap[K, V]` as a Lean type
parameter together with the functions that Go's type switch and the binary
codec dispatch on.
-/

namespace KMap

/-- A Go string viewed as its byte sequence (`len` in Go is the byte length). -/
abbrev GoStr := List Nat

/-! ## Little-endian byte primitives (`encoding/binary`, little-endian) -/

/-- `w`-byte little-endian encoding of a natural number (value taken mod 256^w),
as produced by `binary.Write` with a fixed-width integer. -/
def natToBytesLE : Nat → Nat → List Nat
  | 0, _ => []
  | w + 1, n => n % 256 :: natToBytesLE w (n / 256)

/-- Little-endian value of a byte list, as read by `binary.Read`. -/
def bytesToNatLE : List Nat → Nat
  | [] => 0
  | b :: bs => b + 256 * bytesToNatLE bs

/-- Reading `w` raw bytes from the stream (`binary.Read` on a fixed-width
integer): errors out when the stream is too short, otherwise consumes exactly
`w` bytes. -/
def readLE (w : Nat) (s : List Nat) : Except String (Nat × List Nat) :=
  if w ≤ s.length then .ok (bytesToNatLE (s.take w), s.drop w)
  else .error "unexpected EOF"

/-! ## Signed fixed-width interpretations -/

/-- Two's-complement reading of a 64-bit little-endian value. -/
def int64OfNat (v : Nat) : Int :=
  if v < 2 ^ 63 then (v : Int) else (v : Int) - 2 ^ 64

/-- Two's-complement reading of a 32-bit little-endian value. -/
def int32OfNat (v : Nat) : Int :=
  if v < 2 ^ 31 then (v : Int) else (v : Int) - 2 ^ 32

/-- `binary.Write` of an `int64` value: 8 little-endian bytes of the
two's-complement representation. -/
def int64ToBytes (n : Int) : List Nat := natToBytesLE 8 (n % (2 ^ 64 : Int)).toNat

/-- `binary.Read` into an `*int64` (or `*int`, Go ints being 64-bit). -/
def readInt64 (s : List Nat) : Except String (Int × List Nat) :=
  match readLE 8 s with
  | .error e => .error e
  | .ok (v, r) => .ok (int64OfNat v, r)

/-! ## Length-prefixed payloads

`writeBinary` on a `string` writes a 4-byte signed length prefix followed by
the raw bytes; `readBinary` into a `*string` (and, with identical checks, the
generic JSON branch) reads the prefix, validates `0 ≤ length ≤ 2^30`, and reads
exactly that many bytes (`io.ReadFull`). -/

/-- Byte stream written by `writeBinary` for a string value
(`int32(len(val))` little-endian, then the raw bytes). -/
def writeString (s : GoStr) : List Nat :=
  natToBytesLE 4 (s.length % 2 ^ 32) ++ s

/-- Length-validated read shared by the `*string` branch and the generic JSON
branch of `readBinary` (the latter feeds the returned payload to
`json.Unmarshal`). -/
def readLenPrefixed (s : List Nat) : Except String (GoStr × List Nat) :=
  match readLE 4 s with
  | .error e => .error e
  | .ok (v, r) =>
      if int32OfNat v < 0 ∨ 2 ^ 30 < int32OfNat v then .error "invalid string length"
      else if r.length < (int32OfNat v).toNat then .error "unexpected EOF"
      else .ok (r.take (int32OfNat v).toNat, r.drop (int32OfNat v).toNat)

/-! ## File header (`writeHeader` / `readHeader` in persist.go) -/

/-- `magicNumber = uint32(0x4B4D4150)`, "KMAP" in ASCII. -/
def magicNumber : Nat := 0x4B4D4150

/-- `version = uint32(1)`. -/
def version : Nat := 1

/-- `writeHeader`: 4-byte little-endian magic, then 4-byte little-endian
format version. -/
def headerBytes : List Nat := natToBytesLE 4 magicNumber ++ natToBytesLE 4 version

/-- `readHeader`: read and verify magic and version, in that order. -/
def readHeader (s : List Nat) : Except String (List Nat) :=
  match readLE 4 s with
  | .error e => .error e
  | .ok (magic, r) =>
      if magic = magicNumber then
        match readLE 4 r with
        | .error e => .error e
        | .ok (ver, r2) =>
            if ver = version then .ok r2 else .error "unsupported file version"
      else .error "invalid file format"

/-! ## The ordered map data model (orderedmap.go, list.go)

`Element` is a doubly-linked node holding key, value and the recorded
approximate size.  The linked list is modelled by its front-to-back traversal
sequence (`ll`); `Remove`/`PushBack`/`PushFront` become the corresponding list
operations on that sequence.  The hash index `kv : map[K]*Element` is modelled
as an association list of the node records the map's pointers target; lookup is
by key.  Keys are taken at `K = string` (byte lists), the instantiation the
persistence layer serializes with `writeBinary`'s string case. -/

structure Element (V : Type) where
  key : GoStr
  value : V
  size : Int
deriving Repr, DecidableEq

structure OrderedMap (V : Type) where
  kv : List (Element V)
  ll : List (Element V)
  size : Int
  limit : Int
deriving Repr, DecidableEq

/-- Lookup by key: the first (in a well-formed map, the only) entry with the
given key. -/
def kvLookup {V : Type} : List (Element V) → GoStr → Option (Element V)
  | [], _ => none
  | e :: t, key => if e.key = key then some e else kvLookup t key

/-- In-place mutation of the node an index pointer targets
(`m.kv[key].Value = value; m.kv[key].size = size`): the unique node carrying
`key` is updated, every other node is untouched. -/
def updateFirst {V : Type} : List (Element V) → GoStr → V → Int → List (Element V)
  | [], _, _, _ => []
  | e :: t, key, v, sz =>
      if e.key = key then { e with value := v, size := sz } :: t
      else e :: updateFirst t key v sz

/-- Unlinking the node carrying `key` (`list.Remove` on the pointer held in the
index). -/
def removeFirst {V : Type} : List (Element V) → GoStr → List (Element V)
  | [], _ => []
  | e :: t, key => if e.key = key then t else e :: removeFirst t key

/-- `NewOrdered(limitMb ...int)`: empty map; a positive argument is converted
from mebibytes to bytes, otherwise the limit is `-1` (unbounded). -/
def newOrdered (V : Type) (limitMb : Option Int) : OrderedMap V :=
  { kv := [], ll := [], size := 0,
    limit := match limitMb with
             | some k => if 0 < k then k * 1024 * 1024 else -1
             | none => -1 }

/-- The candidate size `Set` computes: fixed `64`, replaced by the exact byte
length when a size limit is configured and the value is a string
(`asStr` is the Go type switch `any(value).(type)` at the map's value type:
`some` of the byte content for strings, `none` otherwise). -/
def candSize {V : Type} (asStr : V → Option GoStr) (m : OrderedMap V) (value : V) : Int :=
  if 0 < m.limit then
    match asStr value with
    | some s => (s.length : Int)
    | none => 64
  else 64

/-- The early-rejection test in `Set`: a string value longer than the limit. -/
def strTooBig {V : Type} (asStr : V → Option GoStr) (m : OrderedMap V) (value : V) : Bool :=
  match asStr value with
  | some s => decide (m.limit < (s.length : Int))
  | none => false

/-- The whole-structure eviction in `Set`: every index entry deleted, list
reset, running total reset to zero. -/
def evict {V : Type} (m : OrderedMap V) : OrderedMap V :=
  { m with kv := [], ll := [], size := 0 }

/-- The tail of `Set` after the limit checks: update in place when the key is
already present (keeping the node's position), else push a fresh node at the
back of the list and index it. -/
def setCommit {V : Type} (m : OrderedMap V) (key : GoStr) (value : V) (sz : Int) :
    OrderedMap V :=
  match kvLookup m.kv key with
  | some old =>
      { m with kv := updateFirst m.kv key value sz,
               ll := updateFirst m.ll key value sz,
               size := m.size - old.size + sz }
  | none =>
      { m with kv := ⟨key, value, sz⟩ :: m.kv,
               ll := m.ll ++ [⟨key, value, sz⟩],
               size := m.size + sz }

/-- `OrderedMap.Set`.  With a positive limit: reject an over-long string value,
then clear the whole structure when the candidate size plus the *current*
running total exceeds the limit, then commit. -/
def setOp {V : Type} (asStr : V → Option GoStr) (m : OrderedMap V) (key : GoStr)
    (value : V) : Except String (OrderedMap V) :=
  if 0 < m.limit then
    if strTooBig asStr m value then .error "exceeded size limit"
    else
      .ok (setCommit
        (if m.limit < candSize asStr m value + m.size then evict m else m)
        key value (candSize asStr m value))
  else .ok (setCommit m key value (candSize asStr m value))

/-- `OrderedMap.Get`. -/
def getOp {V : Type} (m : OrderedMap V) (key : GoStr) : Option V :=
  (kvLookup m.kv key).map (·.value)

/-- `OrderedMap.Len` (`len(m.kv)`). -/
def lenOp {V : Type} (m : OrderedMap V) : Nat := m.kv.length

/-- `OrderedMap.Keys`: front-to-back traversal of the list. -/
def keysOp {V : Type} (m : OrderedMap V) : List GoStr := m.ll.map (·.key)

/-- `OrderedMap.Values`. -/
def valuesOp {V : Type} (m : OrderedMap V) : List V := m.ll.map (·.value)

/-- `OrderedMap.Delete`: subtract the node's size, unlink it, drop the index
entry; reports whether a removal occurred. -/
def deleteOp {V : Type} (m : OrderedMap V) (key : GoStr) : Bool × OrderedMap V :=
  match kvLookup m.kv key with
  | some e =>
      (true, { m with kv := removeFirst m.kv key,
                      ll := removeFirst m.ll key,
                      size := m.size - e.size })
  | none => (false, m)

/-- `OrderedMap.Flush`. -/
def flushOp {V : Type} (m : OrderedMap V) : OrderedMap V :=
  { m with kv := [], ll := [], size := 0 }

/-- The visitor traversal of `OrderedMap.Range`: entries visited front-to-back,
stopping after the first entry on which the visitor returns false. -/
def rangeGo {V : Type} (f : GoStr → V → Bool) : List (Element V) → List (GoStr × V)
  | [] => []
  | e :: t => if f e.key e.value then (e.key, e.value) :: rangeGo f t else [(e.key, e.value)]

def rangeVisited {V : Type} (m : OrderedMap V) (f : GoStr → V → Bool) :
    List (GoStr × V) :=
  rangeGo f m.ll

/-- `list.PushFront`: a fresh node (zero-valued size field) linked in at the
head. -/
def listPushFront {V : Type} (l : List (Element V)) (key : GoStr) (value : V) :
    List (Element V) :=
  ⟨key, value, 0⟩ :: l

/-- `list.PushBack`: a fresh node linked in at the tail. -/
def listPushBack {V : Type} (l : List (Element V)) (key : GoStr) (value : V) :
    List (Element V) :=
  l ++ [⟨key, value, 0⟩]

/-! ## Persistence (persist.go, `OrderedMap` variants)

File I/O is abstracted to the byte stream written to / read from the file:
`SaveToFileWithOptions` produces the buffer it writes, `LoadFromFile` consumes
the bytes `os.ReadFile` returned.  The gzip filter (`compress/gzip`, an
external library) is abstracted as a codec; the theorems that involve the
compressed path take as hypotheses the two documented properties of the gzip
format this code relies on: decompression inverts compression, and every gzip
stream begins with the two signature bytes `0x1f 0x8b` (RFC 1952). -/

structure SaveOptions where
  compress : Bool
  compressLevel : Int
deriving Repr, DecidableEq

/-- Abstract interface of the `compress/gzip` filter. -/
structure GzipCodec where
  comp : List Nat → List Nat
  decomp : List Nat → Except String (List Nat)

/-- `gzip.NewWriterLevel` accepts levels `-2 ≤ level ≤ 9`. -/
def gzipValidLevel (level : Int) : Bool := decide (-2 ≤ level ∧ level ≤ 9)

/-- The bytes one list entry contributes to the stream: key, value, recorded
size, in that order (`writeBinary` on each). -/
def entryBytes {V : Type} (encV : V → List Nat) (e : Element V) : List Nat :=
  writeString e.key ++ encV e.value ++ int64ToBytes e.size

/-- The uncompressed serialized image: header, `m.size`, `m.limit`,
`int64(m.Len())`, then the entries in front-to-back list order. -/
def bodyBytes {V : Type} (encV : V → List Nat) (m : OrderedMap V) : List Nat :=
  headerBytes ++ int64ToBytes m.size ++ int64ToBytes m.limit
    ++ int64ToBytes (m.kv.length : Int)
    ++ (m.ll.map (entryBytes encV)).flatten

/-- `OrderedMap.SaveToFileWithOptions`: the buffer written to the destination
file, paired with the state of the receiver when the call returns.  When
compression is requested the gzip writer wraps the buffer from the start, so
the *entire* stream — header included — passes through the compressor.
`ioFail` abstracts a filesystem failure (`os.MkdirAll` / `os.Create` /
`file.Write`); no branch of the Go function assigns to the receiver's fields,
which the unchanged second component reflects. -/
def saveToFileWithOptions {V : Type} (encV : V → List Nat) (gz : GzipCodec)
    (ioFail : Bool) (m : OrderedMap V) (opts : SaveOptions) :
    Except String (List Nat) × OrderedMap V :=
  if ioFail then (.error "io error", m)
  else if opts.compress then
    if gzipValidLevel (if opts.compressLevel = 0 then -1 else opts.compressLevel)
    then (.ok (gz.comp (bodyBytes encV m)), m)
    else (.error "gzip: invalid compression level", m)
  else (.ok (bodyBytes encV m), m)

/-- Go map assignment `m.kv[k] = el`: replaces any entry already recorded for
the key. -/
def kvAssign {V : Type} (kv : List (Element V)) (e : Element V) : List (Element V) :=
  e :: removeFirst kv e.key

/-- One iteration of the load loop: push the decoded node at the back of the
list and index it. -/
def loadStep {V : Type} (m : OrderedMap V) (e : Element V) : OrderedMap V :=
  { m with kv := kvAssign m.kv e, ll := m.ll ++ [e] }

/-- The load loop: `count` iterations, each reading key (string), value, and
recorded size. -/
def decEntries {V : Type} (decV : List Nat → Except String (V × List Nat)) :
    Nat → List Nat → OrderedMap V → Except String (OrderedMap V)
  | 0, _, m => .ok m
  | n + 1, s, m =>
      match readLenPrefixed s with
      | .error e => .error e
      | .ok (k, s1) =>
          match decV s1 with
          | .error e => .error e
          | .ok (v, s2) =>
              match readInt64 s2 with
              | .error e => .error e
              | .ok (sz, s3) => decEntries decV n s3 (loadStep m ⟨k, v, sz⟩)

/-- Parsing the (already decompressed) stream: header, then `size`, `limit`,
`count`, then the entry loop starting from a cleared structure. -/
def parseLoad {V : Type} (decV : List Nat → Except String (V × List Nat))
    (s : List Nat) : Except String (OrderedMap V) :=
  match readHeader s with
  | .error e => .error e
  | .ok s1 =>
      match readInt64 s1 with
      | .error e => .error e
      | .ok (size, s2) =>
          match readInt64 s2 with
          | .error e => .error e
          | .ok (limit, s3) =>
              match readInt64 s3 with
              | .error e => .error e
              | .ok (count, s4) =>
                  decEntries decV count.toNat s4
                    { kv := [], ll := [], size := size, limit := limit }

/-- The gzip sniff in `LoadFromFile`:
`len(data) >= 2 && data[0] == 0x1f && data[1] == 0x8b`. -/
def gzipSig (data : List Nat) : Bool :=
  match data with
  | b0 :: b1 :: _ => b0 = 0x1f && b1 = 0x8b
  | _ => false

/-- `OrderedMap.LoadFromFile` on the bytes read from the file: auto-detect
compression by the leading two bytes, decompress the whole stream if detected,
then parse.  The result is the rebuilt structure (the receiver's prior
contents are discarded before the entry loop). -/
def loadFromFile {V : Type} (decV : List Nat → Except String (V × List Nat))
    (gz : GzipCodec) (data : List Nat) : Except String (OrderedMap V) :=
  if gzipSig data then
    match gz.decomp data with
    | .error e => .error e
    | .ok buf => parseLoad decV buf
  else parseLoad decV data

/-! ## Derived run helpers and concrete instances -/

/-- A sequence of `Set` calls, stopping at the first error. -/
def runSets {V : Type} (asStr : V → Option GoStr) (m : OrderedMap V) :
    List (GoStr × V) → Except String (OrderedMap V)
  | [] => .ok m
  | (k, v) :: t =>
      match setOp asStr m k v with
      | .error e => .error e
      | .ok m' => runSets asStr m' t

/-- One `Set` call neither rejects the value nor triggers the whole-structure
eviction. -/
def noEvictNoErr {V : Type} (asStr : V → Option GoStr) (m : OrderedMap V)
    (value : V) : Bool :=
  if 0 < m.limit then
    !(strTooBig asStr m value) &&
      decide (candSize asStr m value + m.size ≤ m.limit)
  else true

/-- Every step of the run commits without error or eviction. -/
def runFree {V : Type} (asStr : V → Option GoStr) (m : OrderedMap V) :
    List (GoStr × V) → Bool
  | [] => true
  | (k, v) :: t =>
      noEvictNoErr asStr m v &&
        runFree asStr (setCommit m k v (candSize asStr m v)) t

/-- A minimal stand-in for the `compress/gzip` codec exhibiting the two
gzip-format properties the loader relies on: the output starts with the
RFC 1952 signature bytes `0x1f 0x8b`, and decompression inverts compression. -/
def toyGzip : GzipCodec where
  comp := fun bs => 0x1f :: 0x8b :: bs
  decomp := fun bs =>
    match bs with
    | 0x1f :: 0x8b :: rest => .ok rest
    | _ => .error "gzip: invalid header"

/-- A serialized image declaring `size = 9`, `limit = 10` and two string
entries: key `"a"` with recorded size 6 and key `"b"` with recorded size 3
(values are empty strings; the recorded per-entry size is an independent
field of the stream). -/
def c3Data : List Nat :=
  headerBytes ++ int64ToBytes 9 ++ int64ToBytes 10 ++ int64ToBytes 2
    ++ (writeString [97] ++ writeString [] ++ int64ToBytes 6)
    ++ (writeString [98] ++ writeString [] ++ int64ToBytes 3)

/-- The map obtained by loading `c3Data`. -/
def c3Map : OrderedMap GoStr :=
  { kv := [⟨[98], [], 3⟩, ⟨[97], [], 6⟩],
    ll := [⟨[97], [], 6⟩, ⟨[98], [], 3⟩],
    size := 9, limit := 10 }

/-- The state after `Set("a", "\x05\x05\x05\x05\x05")` on `c3Map`: everything
evicted, the new entry alone. -/
def c3Evicted : OrderedMap GoStr :=
  { kv := [⟨[97], [5, 5, 5, 5, 5], 5⟩],
    ll := [⟨[97], [5, 5, 5, 5, 5], 5⟩],
    size := 5, limit := 10 }

/-- A serialized image declaring an empty map with `limit = 10`. -/
def c4Data : List Nat :=
  headerBytes ++ int64ToBytes 0 ++ int64ToBytes 10 ++ int64ToBytes 0

/-- The map obtained by loading `c4Data` at value type `int`. -/
def c4Map : OrderedMap Int := { kv := [], ll := [], size := 0, limit := 10 }

/-- A bounded int-valued map (limit 1 MiB) whose running total is close to the
limit: the next 64-byte insert overflows it. -/
def c2Map : OrderedMap Int :=
  { kv := [⟨[97], 0, 1048560⟩], ll := [⟨[97], 0, 1048560⟩],
    size := 1048560, limit := 1048576 }

/-- A small two-entry string map used to witness the round-trip. -/
def c1Map : OrderedMap GoStr :=
  { kv := [⟨[97], [1, 2], 2⟩, ⟨[98], [3], 1⟩],
    ll := [⟨[97], [1, 2], 2⟩, ⟨[98], [3], 1⟩],
    size := 3, limit := -1 }

/-- The state reached by the `set("a",1); set("b",2); set("a",3)` scenario. -/
def mC6 : OrderedMap Int :=
  { kv := [⟨[98], 2, 64⟩, ⟨[97], 3, 64⟩], ll := [⟨[97], 3, 64⟩, ⟨[98], 2, 64⟩],
    size := 128, limit := -1 }

/-- The `set("a",1); set("b",2); set("a",3)` scenario on an unbounded
int-valued map. -/
def c6Run : Except String (OrderedMap Int) :=
  (setOp (fun _ => none) (newOrdered Int none) [97] 1).bind fun m1 =>
    (setOp (fun _ => none) m1 [98] 2).bind fun m2 =>
      setOp (fun _ => none) m2 [97] 3

/-- Saving the scenario's state (uncompressed) and loading the bytes back. -/
def c6Loaded : Except String (OrderedMap Int) :=
  c6Run.bind fun m2 =>
    ((saveToFileWithOptions int64ToBytes toyGzip false m2 ⟨false, 0⟩).1).bind
      fun bytes => loadFromFile readInt64 toyGzip bytes

/-! ## The index/list synchronization invariant -/

/-- The keys carried by a node sequence, in order. -/
def keysOf {V : Type} (l : List (Element V)) : List GoStr := l.map (·.key)

/-- Well-formedness: no duplicate keys on either side, and the index and the
list resolve every key to the same node record. -/
def Wf {V : Type} (m : OrderedMap V) : Prop :=
  (keysOf m.kv).Nodup ∧ (keysOf m.ll).Nodup ∧
    ∀ k, kvLookup m.kv k = kvLookup m.ll k

/-! ## Sequences of mutating operations -/

inductive MapOp (V : Type) where
  | set : GoStr → V → MapOp V
  | del : GoStr → MapOp V
  | flush : MapOp V

/-- The state after one public mutating call: a `Set` that returns the
size-exceeded error leaves the receiver untouched (the error is returned
before any mutation). -/
def applyOp {V : Type} (asStr : V → Option GoStr) (m : OrderedMap V) :
    MapOp V → OrderedMap V
  | .set k v =>
      match setOp asStr m k v with
      | .ok m' => m'
      | .error _ => m
  | .del k => (deleteOp m k).2
  | .flush => flushOp m

def runOps {V : Type} (asStr : V → Option GoStr) (m : OrderedMap V)
    (ops : List (MapOp V)) : OrderedMap V :=
  ops.foldl (applyOp asStr) m

/-! ## Theorems -/

/-! ## List helpers -/

theorem take_append_len {α : Type} (l1 l2 : List α) (n : Nat) (h : l1.length = n) :
    (l1 ++ l2).take n = l1 := by
  induction l1 generalizing n with
  | nil => simp at h; simp [h]
  | cons a t ih =>
      cases n with
      | zero => simp at h
      | succ m => simp only [List.cons_append, List.take_succ_cons]
                  rw [ih]
                  simp at h
                  omega

theorem drop_append_len {α : Type} (l1 l2 : List α) (n : Nat) (h : l1.length = n) :
    (l1 ++ l2).drop n = l2 := by
  induction l1 generalizing n with
  | nil => simp at h; simp [← h]
  | cons a t ih =>
      cases n with
      | zero => simp at h
      | succ m => simp only [List.cons_append, List.drop_succ_cons]
                  rw [ih]
                  simp at h
                  omega

theorem length_natToBytesLE (w n : Nat) : (natToBytesLE w n).length = w := by
  induction w generalizing n with
  | zero => rfl
  | succ w ih => simp [natToBytesLE, ih]

theorem bytesToNatLE_natToBytesLE (w n : Nat) :
    bytesToNatLE (natToBytesLE w n) = n % 256 ^ w := by
  induction w generalizing n with
  | zero => simp [natToBytesLE, bytesToNatLE, Nat.mod_one]
  | succ w ih =>
      rw [natToBytesLE, bytesToNatLE, ih, pow_succ']
      exact (Nat.mod_mul ..).symm

theorem natToBytesLE_lt (w n : Nat) : ∀ b ∈ natToBytesLE w n, b < 256 := by
  induction w generalizing n with
  | zero => simp [natToBytesLE]
  | succ w ih =>
      intro b hb
      rw [natToBytesLE] at hb
      rcases List.mem_cons.1 hb with h | h
      · omega
      · exact ih _ _ h

theorem readLE_encode (w n : Nat) (rest : List Nat) :
    readLE w (natToBytesLE w n ++ rest) = .ok (n % 256 ^ w, rest) := by
  have hl : (natToBytesLE w n).length = w := length_natToBytesLE w n
  rw [readLE, if_pos (by simp [hl]), take_append_len _ _ _ hl,
    drop_append_len _ _ _ hl, bytesToNatLE_natToBytesLE]

theorem readInt64_encode (n : Int) (rest : List Nat)
    (hlo : -2 ^ 63 ≤ n) (hhi : n < 2 ^ 63) :
    readInt64 (int64ToBytes n ++ rest) = .ok (n, rest) := by
  simp only [readInt64, int64ToBytes, readLE_encode]
  have hv : (n % (2 ^ 64 : Int)).toNat % 256 ^ 8 = (n % (2 ^ 64 : Int)).toNat := by
    have h256 : (256 : Nat) ^ 8 = 2 ^ 64 := by norm_num
    rw [h256]
    omega
  rw [hv]
  have hval : int64OfNat (n % (2 ^ 64 : Int)).toNat = n := by
    rw [int64OfNat]; split <;> omega
  rw [hval]

theorem readLenPrefixed_encode (s : GoStr) (rest : List Nat)
    (hs : s.length ≤ 2 ^ 30) :
    readLenPrefixed (writeString s ++ rest) = .ok (s, rest) := by
  rw [writeString, List.append_assoc]
  simp only [readLenPrefixed, readLE_encode]
  have h2 : s.length % 2 ^ 32 % 256 ^ 4 = s.length := by
    have h256 : (256 : Nat) ^ 4 = 2 ^ 32 := by norm_num
    omega
  rw [h2]
  have h3 : int32OfNat s.length = (s.length : Int) := by
    rw [int32OfNat, if_pos (by omega)]
  rw [h3, if_neg (by push_cast; omega)]
  have h4 : ((s.length : Int)).toNat = s.length := by omega
  rw [h4, if_neg (by simp), take_append_len _ _ _ rfl, drop_append_len _ _ _ rfl]

theorem readHeader_encode (rest : List Nat) :
    readHeader (headerBytes ++ rest) = .ok rest := by
  rw [headerBytes, List.append_assoc]
  simp only [readHeader, readLE_encode]
  norm_num [magicNumber, version]

@[simp] theorem keysOf_nil {V : Type} : keysOf ([] : List (Element V)) = [] := rfl

@[simp] theorem keysOf_cons {V : Type} (e : Element V) (t : List (Element V)) :
    keysOf (e :: t) = e.key :: keysOf t := rfl

@[simp] theorem keysOf_append {V : Type} (l1 l2 : List (Element V)) :
    keysOf (l1 ++ l2) = keysOf l1 ++ keysOf l2 := by
  simp [keysOf]

theorem kvLookup_eq_none_iff {V : Type} (l : List (Element V)) (k : GoStr) :
    kvLookup l k = none ↔ k ∉ keysOf l := by
  induction l with
  | nil => simp [kvLookup, keysOf]
  | cons e t ih =>
      simp only [kvLookup, keysOf_cons, List.mem_cons]
      split
      · next h => simp [h]
      · next h =>
          rw [ih]
          constructor
          · intro hk hor
            rcases hor with h1 | h2
            · exact h h1.symm
            · exact hk h2
          · intro hk h2
            exact hk (Or.inr h2)

theorem keysOf_updateFirst {V : Type} (l : List (Element V)) (key : GoStr)
    (v : V) (sz : Int) : keysOf (updateFirst l key v sz) = keysOf l := by
  induction l with
  | nil => rfl
  | cons e t ih =>
      simp only [updateFirst]
      split
      · simp only [keysOf_cons]
      · simp only [keysOf_cons, ih]

theorem kvLookup_updateFirst {V : Type} (l : List (Element V)) (key : GoStr)
    (v : V) (sz : Int) (k : GoStr) :
    kvLookup (updateFirst l key v sz) k =
      if k = key then (kvLookup l key).map (fun e => { e with value := v, size := sz })
      else kvLookup l k := by
  induction l with
  | nil => simp [updateFirst, kvLookup]
  | cons e t ih =>
      by_cases hek : e.key = key
      · simp only [updateFirst, if_pos hek]
        by_cases hkek : e.key = k
        · have hkkey : k = key := hkek.symm.trans hek
          simp [kvLookup, hkkey, hek, hkek]
        · have hknk : ¬ k = key := fun h => hkek (hek.trans h.symm)
          simp [kvLookup, hkek, hknk]
      · simp only [updateFirst, if_neg hek]
        by_cases hkek : e.key = k
        · have hknk : ¬ k = key := fun h => hek (hkek.trans h)
          simp [kvLookup, hkek, hknk]
        · rw [show kvLookup ((e :: updateFirst t key v sz)) k =
            kvLookup (updateFirst t key v sz) k by simp [kvLookup, hkek], ih]
          by_cases hk : k = key <;> simp [kvLookup, hk, hek, hkek]

theorem removeFirst_sublist {V : Type} (l : List (Element V)) (key : GoStr) :
    (removeFirst l key).Sublist l := by
  induction l with
  | nil => simp [removeFirst]
  | cons e t ih =>
      simp only [removeFirst]
      split
      · exact (List.sublist_cons_self e t)
      · exact ih.cons₂ e

theorem keysOf_removeFirst_sublist {V : Type} (l : List (Element V)) (key : GoStr) :
    (keysOf (removeFirst l key)).Sublist (keysOf l) :=
  (removeFirst_sublist l key).map _

theorem kvLookup_removeFirst {V : Type} (l : List (Element V)) (key : GoStr)
    (k : GoStr) (hnd : (keysOf l).Nodup) :
    kvLookup (removeFirst l key) k =
      if k = key then none else kvLookup l k := by
  induction l with
  | nil => simp [removeFirst, kvLookup]
  | cons e t ih =>
      rw [keysOf_cons, List.nodup_cons] at hnd
      obtain ⟨hmem, hnd'⟩ := hnd
      by_cases hek : e.key = key
      · simp only [removeFirst, if_pos hek]
        by_cases hk : k = key
        · have hn : kvLookup t key = none := by
            rw [kvLookup_eq_none_iff, ← hek]; exact hmem
          simp [kvLookup, hk, hn, hek]
        · have hnekk : ¬ e.key = k := fun h => hk (h.symm.trans hek)
          simp [kvLookup, hk, hnekk]
      · simp only [removeFirst, if_neg hek]
        by_cases hekk : e.key = k
        · have hknk : ¬ k = key := fun h => hek (hekk.trans h)
          simp [kvLookup, hekk, hknk]
        · simp [kvLookup, hekk, ih hnd']

theorem kvLookup_append {V : Type} (l1 l2 : List (Element V)) (k : GoStr) :
    kvLookup (l1 ++ l2) k =
      match kvLookup l1 k with
      | some e => some e
      | none => kvLookup l2 k := by
  induction l1 with
  | nil => simp [kvLookup]
  | cons e t ih =>
      simp only [List.cons_append, kvLookup]
      split <;> simp [ih]

theorem wf_newOrdered (V : Type) (limitMb : Option Int) : Wf (newOrdered V limitMb) := by
  refine ⟨by simp [newOrdered, keysOf], by simp [newOrdered, keysOf], ?_⟩
  intro k; rfl

theorem wf_evict {V : Type} (m : OrderedMap V) : Wf (evict m) := by
  refine ⟨by simp [evict, keysOf], by simp [evict, keysOf], ?_⟩
  intro k; rfl

theorem wf_flush {V : Type} (m : OrderedMap V) : Wf (flushOp m) := by
  refine ⟨by simp [flushOp, keysOf], by simp [flushOp, keysOf], ?_⟩
  intro k; rfl

theorem wf_setCommit {V : Type} (m : OrderedMap V) (key : GoStr) (value : V)
    (sz : Int) (hwf : Wf m) : Wf (setCommit m key value sz) := by
  obtain ⟨hkv, hll, hlk⟩ := hwf
  rw [setCommit]
  cases hfind : kvLookup m.kv key with
  | some old =>
      refine ⟨?_, ?_, ?_⟩
      · simpa [keysOf_updateFirst] using hkv
      · simpa [keysOf_updateFirst] using hll
      · intro k
        rw [kvLookup_updateFirst, kvLookup_updateFirst, hlk k, hlk key]
  | none =>
      have hkey_kv : key ∉ keysOf m.kv := (kvLookup_eq_none_iff _ _).1 hfind
      have hkey_ll : key ∉ keysOf m.ll := by
        rw [← kvLookup_eq_none_iff, ← hlk]; exact hfind
      refine ⟨?_, ?_, ?_⟩
      · exact List.nodup_cons.2 ⟨hkey_kv, hkv⟩
      · rw [keysOf_append, keysOf_cons, keysOf_nil]
        exact ((List.perm_append_singleton key (keysOf m.ll)).nodup_iff).2
          (List.nodup_cons.2 ⟨hkey_ll, hll⟩)
      · intro k
        rw [kvLookup_append]
        by_cases hk : key = k
        · have hn : kvLookup m.ll k = none := by
            rw [← hlk, ← hk]; exact hfind
          simp [kvLookup, hn, hk]
        · simp only [kvLookup, if_neg hk, hlk k]
          cases kvLookup m.ll k with
          | some e => rfl
          | none => simp [kvLookup, hk]

theorem wf_setOp {V : Type} (asStr : V → Option GoStr) (m : OrderedMap V)
    (key : GoStr) (value : V) (m' : OrderedMap V) (hwf : Wf m)
    (h : setOp asStr m key value = .ok m') : Wf m' := by
  rw [setOp] at h
  split at h
  · split at h
    · exact absurd h (by simp)
    · simp only [Except.ok.injEq] at h
      subst h
      split
      · exact wf_setCommit _ _ _ _ (wf_evict m)
      · exact wf_setCommit _ _ _ _ hwf
  · simp only [Except.ok.injEq] at h
    subst h
    exact wf_setCommit _ _ _ _ hwf

theorem mem_keysOf_iff {V : Type} (l : List (Element V)) (k : GoStr) :
    k ∈ keysOf l ↔ kvLookup l k ≠ none := by
  rw [Ne, kvLookup_eq_none_iff]
  exact (not_not).symm

theorem wf_deleteOp {V : Type} (m : OrderedMap V) (key : GoStr) (hwf : Wf m) :
    Wf (deleteOp m key).2 := by
  obtain ⟨hkv, hll, hlk⟩ := hwf
  rw [deleteOp]
  cases hfind : kvLookup m.kv key with
  | some e =>
      refine ⟨?_, ?_, ?_⟩
      · exact hkv.sublist (keysOf_removeFirst_sublist m.kv key)
      · exact hll.sublist (keysOf_removeFirst_sublist m.ll key)
      · intro k
        rw [kvLookup_removeFirst _ _ _ hkv, kvLookup_removeFirst _ _ _ hll]
        split
        · rfl
        · exact hlk k
  | none => exact ⟨hkv, hll, hlk⟩

theorem wf_applyOp {V : Type} (asStr : V → Option GoStr) (m : OrderedMap V)
    (op : MapOp V) (hwf : Wf m) : Wf (applyOp asStr m op) := by
  cases op with
  | set k v =>
      rw [applyOp]
      cases h : setOp asStr m k v with
      | ok m' => exact wf_setOp asStr m k v m' hwf h
      | error e => exact hwf
  | del k => exact wf_deleteOp m k hwf
  | flush => exact wf_flush m

theorem wf_runOps {V : Type} (asStr : V → Option GoStr) (m : OrderedMap V)
    (ops : List (MapOp V)) (hwf : Wf m) : Wf (runOps asStr m ops) := by
  induction ops generalizing m with
  | nil => exact hwf
  | cons op t ih =>
      rw [runOps, List.foldl_cons]
      exact ih _ (wf_applyOp asStr m op hwf)

theorem wf_keys_perm {V : Type} (m : OrderedMap V) (hwf : Wf m) :
    (keysOf m.kv).Perm (keysOf m.ll) := by
  obtain ⟨hkv, hll, hlk⟩ := hwf
  apply List.perm_of_nodup_nodup_toFinset_eq hkv hll
  ext k
  simp only [List.mem_toFinset, mem_keysOf_iff, hlk k]

/-! ## Round-trip of the persisted image -/

theorem kvLookup_removeFirst_ne {V : Type} (l : List (Element V)) (key k : GoStr)
    (hne : ¬ key = k) : kvLookup (removeFirst l key) k = kvLookup l k := by
  induction l with
  | nil => rfl
  | cons e t ih =>
      by_cases hek : e.key = key
      · have hnek : ¬ e.key = k := fun h => hne (hek.symm.trans h)
        simp only [removeFirst, if_pos hek, kvLookup, if_neg hnek]
      · by_cases hekk : e.key = k
        · simp only [removeFirst, if_neg hek, kvLookup, if_pos hekk]
        · simp only [removeFirst, if_neg hek, kvLookup, if_neg hekk, ih]

theorem loadFold_ll {V : Type} (ll : List (Element V)) (m0 : OrderedMap V) :
    (ll.foldl loadStep m0).ll = m0.ll ++ ll := by
  induction ll generalizing m0 with
  | nil => simp
  | cons e t ih => simp [loadStep, ih]

theorem loadFold_size {V : Type} (ll : List (Element V)) (m0 : OrderedMap V) :
    (ll.foldl loadStep m0).size = m0.size := by
  induction ll generalizing m0 with
  | nil => rfl
  | cons e t ih => simp [loadStep, ih]

theorem loadFold_limit {V : Type} (ll : List (Element V)) (m0 : OrderedMap V) :
    (ll.foldl loadStep m0).limit = m0.limit := by
  induction ll generalizing m0 with
  | nil => rfl
  | cons e t ih => simp [loadStep, ih]

theorem loadFold_kvLookup {V : Type} (ll : List (Element V)) (m0 : OrderedMap V)
    (k : GoStr) (hnd : (keysOf ll).Nodup) :
    kvLookup (ll.foldl loadStep m0).kv k =
      match kvLookup ll k with
      | some e => some e
      | none => kvLookup m0.kv k := by
  induction ll generalizing m0 with
  | nil => simp [kvLookup]
  | cons e t ih =>
      rw [keysOf_cons, List.nodup_cons] at hnd
      obtain ⟨hmem, hnd'⟩ := hnd
      rw [List.foldl_cons, ih _ hnd']
      by_cases hek : e.key = k
      · have hnone : kvLookup t k = none := by
          rw [kvLookup_eq_none_iff, ← hek]; exact hmem
        simp only [hnone, kvLookup, if_pos hek, loadStep, kvAssign]
      · simp only [kvLookup, if_neg hek, loadStep, kvAssign]
        cases htk : kvLookup t k with
        | some x => rfl
        | none => exact kvLookup_removeFirst_ne m0.kv e.key k hek

theorem decEntries_encode {V : Type} (encV : V → List Nat)
    (decV : List Nat → Except String (V × List Nat)) (ll : List (Element V))
    (m0 : OrderedMap V)
    (hkeys : ∀ e ∈ ll, e.key.length ≤ 2 ^ 30)
    (hvals : ∀ e ∈ ll, ∀ rest, decV (encV e.value ++ rest) = .ok (e.value, rest))
    (hsz : ∀ e ∈ ll, -2 ^ 63 ≤ e.size ∧ e.size < 2 ^ 63) :
    decEntries decV ll.length ((ll.map (entryBytes encV)).flatten) m0 =
      .ok (ll.foldl loadStep m0) := by
  induction ll generalizing m0 with
  | nil => rfl
  | cons e t ih =>
      obtain ⟨h1, h2⟩ := hsz e (List.mem_cons_self e t)
      simp only [List.map_cons, List.flatten_cons, List.length_cons, entryBytes,
        List.append_assoc, decEntries,
        readLenPrefixed_encode _ _ (hkeys e (List.mem_cons_self e t)),
        hvals e (List.mem_cons_self e t), readInt64_encode _ _ h1 h2,
        List.foldl_cons]
      exact ih _ (fun x hx => hkeys x (List.mem_cons_of_mem e hx))
        (fun x hx => hvals x (List.mem_cons_of_mem e hx))
        (fun x hx => hsz x (List.mem_cons_of_mem e hx))

theorem headerBytes_eq : headerBytes = [0x50, 0x41, 0x4D, 0x4B, 1, 0, 0, 0] := by
  rfl

theorem gzipSig_bodyBytes {V : Type} (encV : V → List Nat) (m : OrderedMap V) :
    gzipSig (bodyBytes encV m) = false := by
  rw [bodyBytes, headerBytes_eq]
  rfl

theorem parseLoad_eq {V : Type} (decV : List Nat → Except String (V × List Nat))
    (s : List Nat) : parseLoad decV s =
      match readHeader s with
      | .error e => .error e
      | .ok s1 =>
          match readInt64 s1 with
          | .error e => .error e
          | .ok (size, s2) =>
              match readInt64 s2 with
              | .error e => .error e
              | .ok (limit, s3) =>
                  match readInt64 s3 with
                  | .error e => .error e
                  | .ok (count, s4) =>
                      decEntries decV count.toNat s4
                        { kv := [], ll := [], size := size, limit := limit } := rfl

/-- Parsing the uncompressed image of a well-formed map reconstructs the
iteration sequence, the size and the limit exactly. -/
theorem parseLoad_bodyBytes {V : Type} (encV : V → List Nat)
    (decV : List Nat → Except String (V × List Nat)) (m : OrderedMap V)
    (hwf : Wf m)
    (hkeys : ∀ e ∈ m.ll, e.key.length ≤ 2 ^ 30)
    (hvals : ∀ e ∈ m.ll, ∀ rest, decV (encV e.value ++ rest) = .ok (e.value, rest))
    (hsz : ∀ e ∈ m.ll, -2 ^ 63 ≤ e.size ∧ e.size < 2 ^ 63)
    (hsize : -2 ^ 63 ≤ m.size ∧ m.size < 2 ^ 63)
    (hlimit : -2 ^ 63 ≤ m.limit ∧ m.limit < 2 ^ 63)
    (hcount : (m.kv.length : Int) < 2 ^ 63) :
    parseLoad decV (bodyBytes encV m) =
      .ok (m.ll.foldl loadStep ⟨[], [], m.size, m.limit⟩) := by
  have hlen : m.kv.length = m.ll.length := by
    have := (wf_keys_perm m hwf).length_eq
    simpa [keysOf] using this
  have htn : ((m.kv.length : Int)).toNat = m.ll.length := by omega
  have hc0 : -(2 : Int) ^ 63 ≤ (m.kv.length : Int) :=
    le_trans (by norm_num) (Int.natCast_nonneg _)
  rw [parseLoad_eq, bodyBytes]
  simp only [List.append_assoc]
  rw [readHeader_encode]
  simp only [readInt64_encode _ _ hsize.1 hsize.2,
    readInt64_encode _ _ hlimit.1 hlimit.2, readInt64_encode _ _ hc0 hcount, htn]
  exact decEntries_encode encV decV m.ll _ hkeys hvals hsz

theorem loadFromFile_eq {V : Type} (decV : List Nat → Except String (V × List Nat))
    (gz : GzipCodec) (data : List Nat) :
    loadFromFile decV gz data =
      if gzipSig data then
        match gz.decomp data with
        | .error e => .error e
        | .ok buf => parseLoad decV buf
      else parseLoad decV data := rfl

theorem saveToFileWithOptions_uncompressed {V : Type} (encV : V → List Nat)
    (gz : GzipCodec) (m : OrderedMap V) (opts : SaveOptions)
    (hc : opts.compress = false) :
    saveToFileWithOptions encV gz false m opts = (.ok (bodyBytes encV m), m) := by
  rw [saveToFileWithOptions]
  simp [hc]

theorem saveToFileWithOptions_compressed {V : Type} (encV : V → List Nat)
    (gz : GzipCodec) (m : OrderedMap V) (opts : SaveOptions)
    (hc : opts.compress = true)
    (hlvl : gzipValidLevel (if opts.compressLevel = 0 then -1 else opts.compressLevel) = true) :
    saveToFileWithOptions encV gz false m opts =
      (.ok (gz.comp (bodyBytes encV m)), m) := by
  rw [saveToFileWithOptions]
  simp [hc, hlvl]

/-- Properties of the structure rebuilt by replaying a well-formed map's
entry sequence. -/
theorem loadImage_spec {V : Type} (m : OrderedMap V) (hwf : Wf m) :
    (m.ll.foldl loadStep ⟨[], [], m.size, m.limit⟩).ll = m.ll ∧
    (m.ll.foldl loadStep ⟨[], [], m.size, m.limit⟩).size = m.size ∧
    (m.ll.foldl loadStep ⟨[], [], m.size, m.limit⟩).limit = m.limit ∧
    ∀ k, kvLookup (m.ll.foldl loadStep ⟨[], [], m.size, m.limit⟩).kv k =
      kvLookup m.kv k := by
  obtain ⟨hkv, hll, hlk⟩ := hwf
  refine ⟨by simp [loadFold_ll], loadFold_size _ _, loadFold_limit _ _, ?_⟩
  intro k
  rw [loadFold_kvLookup _ _ _ hll, hlk k]
  cases kvLookup m.ll k with
  | some e => rfl
  | none => rfl

/-- The observable round-trip properties, stated against the parsed image of
the serialized body. -/
theorem parse_bodyBytes_roundtrip {V : Type} (encV : V → List Nat)
    (decV : List Nat → Except String (V × List Nat)) (m : OrderedMap V)
    (hwf : Wf m)
    (hkeys : ∀ e ∈ m.ll, e.key.length ≤ 2 ^ 30)
    (hvals : ∀ e ∈ m.ll, ∀ rest, decV (encV e.value ++ rest) = .ok (e.value, rest))
    (hsz : ∀ e ∈ m.ll, -2 ^ 63 ≤ e.size ∧ e.size < 2 ^ 63)
    (hsize : -2 ^ 63 ≤ m.size ∧ m.size < 2 ^ 63)
    (hlimit : -2 ^ 63 ≤ m.limit ∧ m.limit < 2 ^ 63)
    (hcount : (m.kv.length : Int) < 2 ^ 63) :
    ∃ m', parseLoad decV (bodyBytes encV m) = .ok m' ∧
      keysOp m' = keysOp m ∧ valuesOp m' = valuesOp m ∧
      (∀ k, getOp m' k = getOp m k) ∧ m'.limit = m.limit ∧
      m'.ll = m.ll ∧ m'.size = m.size := by
  obtain ⟨h1, h2, h3, h4⟩ := loadImage_spec m hwf
  refine ⟨_, parseLoad_bodyBytes encV decV m hwf hkeys hvals hsz hsize hlimit hcount,
    ?_, ?_, ?_, h3, h1, h2⟩
  · rw [keysOp, keysOp, h1]
  · rw [valuesOp, valuesOp, h1]
  · intro k
    rw [getOp, getOp, h4 k]

/-! ## Order of insertion -/

theorem except_bind_ok {ε α β : Type} (a : α) (f : α → Except ε β) :
    (Except.ok a : Except ε α).bind f = f a := rfl

theorem setOp_of_free {V : Type} (asStr : V → Option GoStr) (m : OrderedMap V)
    (key : GoStr) (value : V) (hfree : noEvictNoErr asStr m value = true) :
    setOp asStr m key value = .ok (setCommit m key value (candSize asStr m value)) := by
  rw [setOp]
  by_cases hpos : 0 < m.limit
  · rw [noEvictNoErr, if_pos hpos, Bool.and_eq_true, Bool.not_eq_eq_eq_not,
      Bool.not_true, decide_eq_true_eq] at hfree
    rw [if_pos hpos, hfree.1]
    rw [if_neg (Bool.false_ne_true), if_neg (not_lt.2 hfree.2)]
  · rw [if_neg hpos]

theorem rangeGo_true {V : Type} (l : List (Element V)) :
    rangeGo (fun _ _ => true) l = l.map (fun e => (e.key, e.value)) := by
  induction l with
  | nil => rfl
  | cons e t ih => simp [rangeGo, ih]

theorem rangeVisited_true_keys {V : Type} (m : OrderedMap V) :
    (rangeVisited m (fun _ _ => true)).map Prod.fst = keysOp m := by
  rw [rangeVisited, rangeGo_true, keysOp, List.map_map]
  rfl

theorem runSets_appends {V : Type} (asStr : V → Option GoStr) (m : OrderedMap V)
    (ops : List (GoStr × V))
    (hdist : (ops.map Prod.fst).Nodup)
    (hnew : ∀ p ∈ ops, kvLookup m.kv p.1 = none)
    (hfree : runFree asStr m ops = true) :
    ∃ m', runSets asStr m ops = .ok m' ∧
      keysOp m' = keysOp m ++ ops.map Prod.fst := by
  induction ops generalizing m with
  | nil => exact ⟨m, rfl, by simp [runSets]⟩
  | cons p t ih =>
      obtain ⟨k, v⟩ := p
      rw [runFree, Bool.and_eq_true] at hfree
      have hstep := setOp_of_free asStr m k v hfree.1
      have hknew : kvLookup m.kv k = none :=
        hnew (k, v) (List.mem_cons_self _ _)
      have hcommit : setCommit m k v (candSize asStr m v) =
          { m with kv := ⟨k, v, candSize asStr m v⟩ :: m.kv,
                   ll := m.ll ++ [⟨k, v, candSize asStr m v⟩],
                   size := m.size + candSize asStr m v } := by
        rw [setCommit, hknew]
      rw [List.map_cons, List.nodup_cons] at hdist
      have hkmem : k ∉ List.map Prod.fst t := hdist.1
      have hnew' : ∀ q ∈ t, kvLookup (setCommit m k v (candSize asStr m v)).kv q.1 = none := by
        intro q hq
        rw [hcommit]
        have hqk : ¬ k = q.1 := by
          intro h
          rw [h] at hkmem
          exact hkmem (List.mem_map_of_mem Prod.fst hq)
        simp only [kvLookup]
        rw [if_neg hqk]
        exact hnew q (List.mem_cons_of_mem _ hq)
      obtain ⟨m', hrun, hkeys⟩ := ih (setCommit m k v (candSize asStr m v))
        hdist.2 hnew' hfree.2
      refine ⟨m', ?_, ?_⟩
      · rw [runSets, hstep]
        exact hrun
      · rw [hkeys, hcommit]
        simp [keysOp]

/-! ## Decoder failure characterizations -/

theorem natToBytesLE_bytesToNatLE (l : List Nat) (w : Nat) (hw : l.length = w)
    (hb : ∀ b ∈ l, b < 256) : natToBytesLE w (bytesToNatLE l) = l := by
  induction l generalizing w with
  | nil => rw [← hw]; rfl
  | cons b bs ih =>
      cases w with
      | zero => simp at hw
      | succ w' =>
          have hb0 : b < 256 := hb b (List.mem_cons_self _ _)
          rw [bytesToNatLE, natToBytesLE]
          congr 1
          · omega
          · have hdiv : (b + 256 * bytesToNatLE bs) / 256 = bytesToNatLE bs := by
              omega
            rw [hdiv]
            exact ih w' (by simpa using hw)
              (fun x hx => hb x (List.mem_cons_of_mem _ hx))

theorem readLE_ok_inv (w : Nat) (s : List Nat) (v : Nat) (r : List Nat)
    (h : readLE w s = .ok (v, r)) :
    w ≤ s.length ∧ v = bytesToNatLE (s.take w) ∧ r = s.drop w := by
  rw [readLE] at h
  split at h
  · next hle =>
      injection h with h2
      refine ⟨hle, ?_, ?_⟩
      · exact (congrArg Prod.fst h2).symm
      · exact (congrArg Prod.snd h2).symm
  · exact absurd h (by simp)

theorem readHeader_ok_iff (s r : List Nat) (hwfb : ∀ b ∈ s, b < 256) :
    readHeader s = .ok r ↔ s = headerBytes ++ r := by
  constructor
  · intro h
    cases h1 : readLE 4 s with
    | error e => simp [readHeader, h1] at h
    | ok p =>
        obtain ⟨v1, r1⟩ := p
        simp only [readHeader, h1] at h
        obtain ⟨hle1, hv1, hr1⟩ := readLE_ok_inv 4 s v1 r1 h1
        by_cases hm : v1 = magicNumber
        · rw [if_pos hm] at h
          cases h2 : readLE 4 r1 with
          | error e => simp [h2] at h
          | ok q =>
              obtain ⟨v2, r2⟩ := q
              simp only [h2] at h
              obtain ⟨hle2, hv2, hr2⟩ := readLE_ok_inv 4 r1 v2 r2 h2
              by_cases hv : v2 = version
              · rw [if_pos hv] at h
                have hrr : r2 = r := by injection h
                have htake1 : s.take 4 = natToBytesLE 4 magicNumber := by
                  rw [← hm, hv1]
                  rw [natToBytesLE_bytesToNatLE (s.take 4) 4
                    (by rw [List.length_take]; omega)
                    (fun x hx => hwfb x (List.mem_of_mem_take hx))]
                have htake2 : r1.take 4 = natToBytesLE 4 version := by
                  rw [← hv, hv2]
                  rw [natToBytesLE_bytesToNatLE (r1.take 4) 4
                    (by rw [List.length_take]; omega)
                    (fun x hx => hwfb x (by
                      have hx1 := List.mem_of_mem_take hx
                      rw [hr1] at hx1
                      exact List.mem_of_mem_drop hx1))]
                rw [headerBytes, ← htake1, ← htake2, ← hrr, hr2,
                  List.append_assoc, List.take_append_drop, hr1,
                  List.take_append_drop]
              · rw [if_neg hv] at h
                exact absurd h (by simp)
        · rw [if_neg hm] at h
          exact absurd h (by simp)
  · intro h
    rw [h]
    exact readHeader_encode r

theorem readLenPrefixed_spec (s : List Nat) (v : Nat) (r : List Nat)
    (h4 : readLE 4 s = .ok (v, r)) :
    ((int32OfNat v < 0 ∨ 2 ^ 30 < int32OfNat v) →
        readLenPrefixed s = .error "invalid string length") ∧
    (0 ≤ int32OfNat v → int32OfNat v ≤ 2 ^ 30 →
      (r.length < (int32OfNat v).toNat →
        readLenPrefixed s = .error "unexpected EOF") ∧
      ((int32OfNat v).toNat ≤ r.length →
        readLenPrefixed s =
          .ok (r.take (int32OfNat v).toNat, r.drop (int32OfNat v).toNat) ∧
        (r.take (int32OfNat v).toNat).length = (int32OfNat v).toNat)) := by
  refine ⟨?_, ?_⟩
  · intro hbad
    simp only [readLenPrefixed, h4]
    rw [if_pos hbad]
  · intro hlo hhi
    have hok : ¬ (int32OfNat v < 0 ∨ 2 ^ 30 < int32OfNat v) := by
      push_neg
      exact ⟨hlo, hhi⟩
    refine ⟨?_, ?_⟩
    · intro hshort
      simp only [readLenPrefixed, h4]
      rw [if_neg hok, if_pos hshort]
    · intro hlong
      refine ⟨?_, ?_⟩
      · simp only [readLenPrefixed, h4]
        rw [if_neg hok, if_neg (not_lt.2 hlong)]
      · rw [List.length_take]
        omega

/-! ## Claim theorems -/

/-- C1: for every OrderedMap whose entries round-trip exactly through the
codec (and fit the serialized integer widths), loading the file produced by
`SaveToFileWithOptions` yields a structure with identical iteration order
(keys and values), identical key-to-value mapping, and identical limit — for
every choice of save options, so both when `Compress` is false and when it is
true (the gzip filter being any codec with the two documented gzip-format
properties). -/
theorem save_load_roundtrip {V : Type} (encV : V → List Nat)
    (decV : List Nat → Except String (V × List Nat)) (gz : GzipCodec)
    (m : OrderedMap V) (opts : SaveOptions) (bytes : List Nat)
    (hwf : Wf m)
    (hkeys : ∀ e ∈ m.ll, e.key.length ≤ 2 ^ 30)
    (hvals : ∀ e ∈ m.ll, ∀ rest, decV (encV e.value ++ rest) = .ok (e.value, rest))
    (hsz : ∀ e ∈ m.ll, -2 ^ 63 ≤ e.size ∧ e.size < 2 ^ 63)
    (hsize : -2 ^ 63 ≤ m.size ∧ m.size < 2 ^ 63)
    (hlimit : -2 ^ 63 ≤ m.limit ∧ m.limit < 2 ^ 63)
    (hcount : (m.kv.length : Int) < 2 ^ 63)
    (hgzsig : ∀ bs, gzipSig (gz.comp bs) = true)
    (hgzinv : ∀ bs, gz.decomp (gz.comp bs) = .ok bs)
    (hsave : (saveToFileWithOptions encV gz false m opts).1 = .ok bytes) :
    ∃ m', loadFromFile decV gz bytes = .ok m' ∧
      keysOp m' = keysOp m ∧ valuesOp m' = valuesOp m ∧
      (∀ k, getOp m' k = getOp m k) ∧ m'.limit = m.limit ∧
      m'.ll = m.ll ∧ m'.size = m.size := by
  obtain ⟨m', hparse, hprops⟩ := parse_bodyBytes_roundtrip encV decV m hwf hkeys
    hvals hsz hsize hlimit hcount
  cases hcmp : opts.compress with
  | false =>
      have hb : (Except.ok (bodyBytes encV m) : Except String (List Nat)) =
          Except.ok bytes := by
        rw [saveToFileWithOptions_uncompressed encV gz m opts hcmp] at hsave
        exact hsave
      obtain rfl : bodyBytes encV m = bytes := by injection hb
      refine ⟨m', ?_, hprops⟩
      rw [loadFromFile_eq]
      rw [if_neg (by rw [gzipSig_bodyBytes]; exact Bool.false_ne_true)]
      exact hparse
  | true =>
      by_cases hlv : gzipValidLevel
        (if opts.compressLevel = 0 then -1 else opts.compressLevel) = true
      · have hb : (Except.ok (gz.comp (bodyBytes encV m)) : Except String (List Nat)) =
            Except.ok bytes := by
          rw [saveToFileWithOptions_compressed encV gz m opts hcmp hlv] at hsave
          exact hsave
        obtain rfl : gz.comp (bodyBytes encV m) = bytes := by injection hb
        refine ⟨m', ?_, hprops⟩
        rw [loadFromFile_eq, if_pos (hgzsig (bodyBytes encV m))]
        simp only [hgzinv (bodyBytes encV m)]
        exact hparse
      · exfalso
        rw [saveToFileWithOptions] at hsave
        simp only [Bool.false_eq_true, if_false, hcmp, if_true,
          Bool.not_eq_true] at hsave hlv
        rw [if_neg (by rw [hlv]; exact Bool.false_ne_true)] at hsave
        exact Except.noConfusion hsave

/-- C1 witness: a concrete two-entry string map saved through the compressed
path and loaded back. -/
theorem save_load_roundtrip_witness :
    Wf c1Map ∧
    (∀ e ∈ c1Map.ll, e.key.length ≤ 2 ^ 30) ∧
    (saveToFileWithOptions writeString toyGzip false c1Map ⟨true, 0⟩).1 =
      .ok (toyGzip.comp (bodyBytes writeString c1Map)) ∧
    ∃ m', loadFromFile readLenPrefixed toyGzip
        (toyGzip.comp (bodyBytes writeString c1Map)) = .ok m' ∧
      keysOp m' = keysOp c1Map ∧ valuesOp m' = valuesOp c1Map ∧
      (∀ k, getOp m' k = getOp c1Map k) ∧ m'.limit = c1Map.limit ∧
      m'.ll = c1Map.ll ∧ m'.size = c1Map.size :=
  ⟨⟨by decide, by decide, fun _ => rfl⟩, by decide, rfl,
    save_load_roundtrip writeString readLenPrefixed toyGzip c1Map ⟨true, 0⟩ _
      ⟨by decide, by decide, fun _ => rfl⟩
      (by decide)
      (by
        intro e he rest
        have he' : e = ⟨[97], [1, 2], 2⟩ ∨ e = ⟨[98], [3], 1⟩ := by
          simpa [c1Map] using he
        rcases he' with rfl | rfl <;>
          exact readLenPrefixed_encode _ _ (by decide))
      (by decide) (by decide) (by decide) (by decide)
      (fun _ => rfl) (fun _ => rfl) rfl⟩

/-- C2: on a bounded map, when the candidate's computed size fits within the
limit but the current running total plus the candidate size exceeds it, `Set`
clears the entire structure (all entries evicted, total reset to zero) before
inserting the new entry, so that immediately after the call `Len() = 1` and
the newly set key is the only key present. -/
theorem eviction_clears_whole_structure {V : Type} (asStr : V → Option GoStr)
    (m : OrderedMap V) (key : GoStr) (value : V)
    (hpos : 0 < m.limit)
    (hfits : candSize asStr m value ≤ m.limit)
    (hover : m.limit < candSize asStr m value + m.size) :
    setOp asStr m key value =
      .ok { kv := [⟨key, value, candSize asStr m value⟩],
            ll := [⟨key, value, candSize asStr m value⟩],
            size := candSize asStr m value, limit := m.limit } ∧
    ∀ m', setOp asStr m key value = .ok m' →
      lenOp m' = 1 ∧ keysOp m' = [key] ∧ getOp m' key = some value ∧
      ∀ k, ¬ k = key → getOp m' k = none := by
  have hstb : strTooBig asStr m value = false := by
    rw [strTooBig]
    cases has : asStr value with
    | some s =>
        rw [candSize, if_pos hpos, has] at hfits
        simp only [decide_eq_false_iff_not, not_lt]
        exact hfits
    | none => rfl
  have hmain : setOp asStr m key value =
      .ok { kv := [⟨key, value, candSize asStr m value⟩],
            ll := [⟨key, value, candSize asStr m value⟩],
            size := candSize asStr m value, limit := m.limit } := by
    rw [setOp, if_pos hpos, hstb, if_neg Bool.false_ne_true, if_pos hover]
    simp [setCommit, evict, kvLookup]
  refine ⟨hmain, ?_⟩
  intro m' h'
  rw [hmain] at h'
  injection h' with h''
  subst h''
  refine ⟨rfl, rfl, by simp [getOp, kvLookup], ?_⟩
  intro k hk
  have hkk : ¬ key = k := fun h => hk h.symm
  simp [getOp, kvLookup, hkk]

/-- C2 witness: a bounded int-valued map 16 bytes short of its 1 MiB ceiling;
the next 64-byte insert triggers the whole-structure eviction. -/
theorem eviction_clears_whole_structure_witness :
    (0 : Int) < c2Map.limit ∧
    candSize (fun _ => none) c2Map (0 : Int) ≤ c2Map.limit ∧
    c2Map.limit < candSize (fun _ => none) c2Map (0 : Int) + c2Map.size ∧
    (setOp (fun _ => none) c2Map [98] (0 : Int) =
      .ok { kv := [⟨[98], 0, candSize (fun _ => none) c2Map (0 : Int)⟩],
            ll := [⟨[98], 0, candSize (fun _ => none) c2Map (0 : Int)⟩],
            size := candSize (fun _ => none) c2Map (0 : Int),
            limit := c2Map.limit } ∧
    ∀ m', setOp (fun _ => none) c2Map [98] (0 : Int) = .ok m' →
      lenOp m' = 1 ∧ keysOp m' = [[98]] ∧ getOp m' [98] = some 0 ∧
      ∀ k, ¬ k = [98] → getOp m' k = none) :=
  ⟨by decide, by decide, by decide,
    eviction_clears_whole_structure (fun _ => none) c2Map [98] 0
      (by decide) (by decide) (by decide)⟩

/-- C3 (amended): the eviction comparison in `Set` uses the full current
running total — an existing key's previous size is NOT subtracted before the
comparison, so an update whose replacement would fit within the limit can
still clear the whole structure; the previous size is accounted for only in
the in-place update performed when no eviction was triggered. -/
theorem update_does_not_discount_old_size {V : Type} (asStr : V → Option GoStr)
    (m : OrderedMap V) (key : GoStr) (value : V)
    (hpos : 0 < m.limit) (hstb : strTooBig asStr m value = false) :
    (m.limit < candSize asStr m value + m.size →
      setOp asStr m key value =
        .ok { kv := [⟨key, value, candSize asStr m value⟩],
              ll := [⟨key, value, candSize asStr m value⟩],
              size := candSize asStr m value, limit := m.limit }) ∧
    (¬ m.limit < candSize asStr m value + m.size →
      ∀ old, kvLookup m.kv key = some old →
        ∃ m', setOp asStr m key value = .ok m' ∧
          m'.size = m.size - old.size + candSize asStr m value ∧
          keysOp m' = keysOp m) := by
  constructor
  · intro hover
    rw [setOp, if_pos hpos, hstb, if_neg Bool.false_ne_true, if_pos hover]
    simp [setCommit, evict, kvLookup]
  · intro hfit old hold
    rw [setOp, if_pos hpos, hstb, if_neg Bool.false_ne_true, if_neg hfit]
    refine ⟨_, rfl, ?_, ?_⟩
    · simp only [setCommit, hold]
    · simp only [setCommit, hold, keysOp]
      have hk := keysOf_updateFirst m.ll key value (candSize asStr m value)
      simpa [keysOf] using hk

/-- C3 amendment witness: on the loaded bounded map `c3Map` an over-budget
update evicts even though the replacement would fit. -/
theorem update_does_not_discount_old_size_witness :
    (0 : Int) < c3Map.limit ∧
    strTooBig some c3Map [5, 5, 5, 5, 5] = false ∧
    ((c3Map.limit < candSize some c3Map [5, 5, 5, 5, 5] + c3Map.size →
      setOp some c3Map [97] [5, 5, 5, 5, 5] =
        .ok { kv := [⟨[97], [5, 5, 5, 5, 5], candSize some c3Map [5, 5, 5, 5, 5]⟩],
              ll := [⟨[97], [5, 5, 5, 5, 5], candSize some c3Map [5, 5, 5, 5, 5]⟩],
              size := candSize some c3Map [5, 5, 5, 5, 5], limit := c3Map.limit }) ∧
    (¬ c3Map.limit < candSize some c3Map [5, 5, 5, 5, 5] + c3Map.size →
      ∀ old, kvLookup c3Map.kv [97] = some old →
        ∃ m', setOp some c3Map [97] [5, 5, 5, 5, 5] = .ok m' ∧
          m'.size = c3Map.size - old.size + candSize some c3Map [5, 5, 5, 5, 5] ∧
          keysOp m' = keysOp c3Map)) :=
  ⟨by decide, by decide,
    update_does_not_discount_old_size some c3Map [97] [5, 5, 5, 5, 5]
      (by decide) (by decide)⟩

/-- C3 counterexample: load a file declaring limit 10, total 9, key "a" with
recorded size 6 and key "b" with recorded size 3; update "a" with a 5-byte
string.  Subtracting the old size before the comparison would give
9 - 6 + 5 = 8 ≤ 10, so per the claim no eviction may occur and both keys must
survive; the code instead compares 5 + 9 > 10 and clears everything — after
the call only "a" remains and "b" is gone. -/
theorem update_evicts_despite_fitting_replacement :
    loadFromFile readLenPrefixed toyGzip c3Data = .ok c3Map ∧
    kvLookup c3Map.kv [97] = some ⟨[97], [], 6⟩ ∧
    (9 : Int) - 6 + 5 ≤ 10 ∧
    setOp some c3Map [97] [5, 5, 5, 5, 5] = .ok c3Evicted ∧
    lenOp c3Evicted = 1 ∧ keysOp c3Evicted = [[97]] ∧
    getOp c3Evicted [98] = none :=
  ⟨rfl, rfl, by decide, rfl, rfl, rfl, rfl⟩

/-- C4 (amended): with a positive limit, a string candidate strictly longer
than the limit is rejected with the size-limit error before any mutation, so
the structure is unchanged; the guard applies only to string values — a
non-string candidate is assigned the fixed nominal size 64 and is never
rejected. -/
theorem oversized_string_set_rejected {V : Type} (asStr : V → Option GoStr)
    (m : OrderedMap V) (key : GoStr) (value : V) (s : GoStr)
    (hpos : 0 < m.limit) (hs : asStr value = some s)
    (hbig : m.limit < (s.length : Int)) :
    setOp asStr m key value = .error "exceeded size limit" ∧
    applyOp asStr m (.set key value) = m ∧
    ∀ v2 : V, asStr v2 = none → ∃ m2, setOp asStr m key v2 = .ok m2 := by
  have hstb : strTooBig asStr m value = true := by
    rw [strTooBig, hs]
    simp only [decide_eq_true_eq]
    exact hbig
  have herr : setOp asStr m key value = .error "exceeded size limit" := by
    rw [setOp, if_pos hpos, hstb, if_pos rfl]
  refine ⟨herr, ?_, ?_⟩
  · rw [applyOp, herr]
  · intro v2 hv2
    have hstb2 : strTooBig asStr m v2 = false := by
      rw [strTooBig, hv2]
    rw [setOp, if_pos hpos, hstb2, if_neg Bool.false_ne_true]
    exact ⟨_, rfl⟩

/-- C4 amendment witness: a 20-byte string on a limit-10 map is rejected and
the map is unchanged; the int value 5 on the same map is not rejected. -/
theorem oversized_string_set_rejected_witness :
    (0 : Int) < c3Map.limit ∧
    some [7, 7, 7, 7, 7, 7, 7, 7, 7, 7, 7, 7, 7, 7, 7, 7, 7, 7, 7, 7] =
      some [7, 7, 7, 7, 7, 7, 7, 7, 7, 7, 7, 7, 7, 7, 7, 7, 7, 7, 7, 7] ∧
    c3Map.limit <
      (([7, 7, 7, 7, 7, 7, 7, 7, 7, 7, 7, 7, 7, 7, 7, 7, 7, 7, 7, 7] : GoStr).length : Int) ∧
    (setOp some c3Map [99] [7, 7, 7, 7, 7, 7, 7, 7, 7, 7, 7, 7, 7, 7, 7, 7, 7, 7, 7, 7] =
        .error "exceeded size limit" ∧
      applyOp some c3Map
        (.set [99] [7, 7, 7, 7, 7, 7, 7, 7, 7, 7, 7, 7, 7, 7, 7, 7, 7, 7, 7, 7]) = c3Map ∧
      ∀ v2 : GoStr, some v2 = none → ∃ m2, setOp some c3Map [99] v2 = .ok m2) :=
  ⟨by decide, rfl, by decide,
    oversized_string_set_rejected some c3Map [99]
      [7, 7, 7, 7, 7, 7, 7, 7, 7, 7, 7, 7, 7, 7, 7, 7, 7, 7, 7, 7]
      [7, 7, 7, 7, 7, 7, 7, 7, 7, 7, 7, 7, 7, 7, 7, 7, 7, 7, 7, 7]
      (by decide) rfl (by decide)⟩

/-- C4 counterexample: loading `c4Data` yields a bounded map with limit 10; a
`Set` with the int value 5 — whose computed size is the fixed nominal 64,
strictly greater than the limit — succeeds and inserts the entry instead of
failing with the size-exceeded error and leaving the structure unchanged. -/
theorem oversized_nonstring_set_succeeds :
    loadFromFile readInt64 toyGzip c4Data = .ok c4Map ∧
    0 < c4Map.limit ∧
    candSize (fun _ => none) c4Map (5 : Int) = 64 ∧
    c4Map.limit < candSize (fun _ => none) c4Map (5 : Int) ∧
    setOp (fun _ => none) c4Map [107] (5 : Int) =
      .ok { kv := [⟨[107], 5, 64⟩], ll := [⟨[107], 5, 64⟩],
            size := 64, limit := 10 } :=
  ⟨rfl, by decide, rfl, by decide, rfl⟩

theorem pushFront_fold_keys {V : Type} (ps : List (GoStr × V))
    (acc : List (Element V)) :
    keysOf (ps.foldl (fun l p => listPushFront l p.1 p.2) acc) =
      (ps.map Prod.fst).reverse ++ keysOf acc := by
  induction ps generalizing acc with
  | nil => simp
  | cons p t ih =>
      rw [List.foldl_cons, ih, List.map_cons, List.reverse_cons, List.append_assoc]
      rfl

/-- C5: a sequence of `Set` calls with pairwise distinct fresh keys in which no
step errors or triggers the eviction appends each key at the back: afterwards
`Keys()` and `Range` visit the keys in exactly the order of the calls; and on
the underlying list, a sequence of `PushFront` calls leaves the keys in
reverse call order from the head. -/
theorem keys_follow_call_order {V : Type} (asStr : V → Option GoStr)
    (m : OrderedMap V) (ops : List (GoStr × V))
    (hdist : (ops.map Prod.fst).Nodup)
    (hnew : ∀ p ∈ ops, kvLookup m.kv p.1 = none)
    (hfree : runFree asStr m ops = true) :
    (∃ m', runSets asStr m ops = .ok m' ∧
      keysOp m' = keysOp m ++ ops.map Prod.fst ∧
      (rangeVisited m' (fun _ _ => true)).map Prod.fst =
        keysOp m ++ ops.map Prod.fst) ∧
    ∀ ps : List (GoStr × V),
      keysOf (ps.foldl (fun l p => listPushFront l p.1 p.2) []) =
        (ps.map Prod.fst).reverse := by
  constructor
  · obtain ⟨m', hrun, hkeys⟩ := runSets_appends asStr m ops hdist hnew hfree
    exact ⟨m', hrun, hkeys, by rw [rangeVisited_true_keys, hkeys]⟩
  · intro ps
    rw [pushFront_fold_keys ps []]
    simp

/-- C5 witness: two fresh distinct string keys on a fresh unbounded map. -/
theorem keys_follow_call_order_witness :
    (([([97], [1]), ([98], [2])] : List (GoStr × GoStr)).map Prod.fst).Nodup ∧
    (∀ p ∈ ([([97], [1]), ([98], [2])] : List (GoStr × GoStr)),
      kvLookup (newOrdered GoStr none).kv p.1 = none) ∧
    runFree some (newOrdered GoStr none) [([97], [1]), ([98], [2])] = true ∧
    ((∃ m', runSets some (newOrdered GoStr none) [([97], [1]), ([98], [2])] = .ok m' ∧
      keysOp m' = keysOp (newOrdered GoStr none) ++
        ([([97], [1]), ([98], [2])] : List (GoStr × GoStr)).map Prod.fst ∧
      (rangeVisited m' (fun _ _ => true)).map Prod.fst =
        keysOp (newOrdered GoStr none) ++
          ([([97], [1]), ([98], [2])] : List (GoStr × GoStr)).map Prod.fst) ∧
    ∀ ps : List (GoStr × GoStr),
      keysOf (ps.foldl (fun l p => listPushFront l p.1 p.2) []) =
        (ps.map Prod.fst).reverse) :=
  ⟨by decide, by decide, by decide,
    keys_follow_call_order some (newOrdered GoStr none) [([97], [1]), ([98], [2])]
      (by decide) (by decide) (by decide)⟩

/-- C6: on an unbounded map (`limit ≤ 0`) `Set` always succeeds, and updating
an existing key keeps its value in place without moving it in the iteration
order: after `set("a",1); set("b",2); set("a",3)` the keys are `["a","b"]` and
`get("a") = 3`; saving the state to the byte stream and loading it back
reproduces this exact state. -/
theorem unbounded_update_preserves_position :
    (∀ (V : Type) (asStr : V → Option GoStr) (m : OrderedMap V) (k : GoStr) (v : V),
      m.limit ≤ 0 → ∃ m', setOp asStr m k v = .ok m') ∧
    c6Run = .ok mC6 ∧ keysOp mC6 = [[97], [98]] ∧ getOp mC6 [97] = some 3 ∧
    c6Loaded = c6Run := by
  refine ⟨?_, rfl, rfl, rfl, ?_⟩
  · intro V asStr m k v hle
    rw [setOp, if_neg (not_lt.2 hle)]
    exact ⟨_, rfl⟩
  · have h1 : c6Run = .ok mC6 := rfl
    rw [show c6Loaded = c6Run.bind (fun m2 =>
      ((saveToFileWithOptions int64ToBytes toyGzip false m2 ⟨false, 0⟩).1).bind
        fun bytes => loadFromFile readInt64 toyGzip bytes) from rfl, h1,
      except_bind_ok]
    rw [show (saveToFileWithOptions int64ToBytes toyGzip false mC6 ⟨false, 0⟩).1 =
      .ok (bodyBytes int64ToBytes mC6) from rfl, except_bind_ok]
    rw [show loadFromFile readInt64 toyGzip (bodyBytes int64ToBytes mC6) =
      .ok mC6 from rfl]

/-- C6 witness: the always-succeeds clause at a fresh unbounded int map. -/
theorem unbounded_update_preserves_position_witness :
    (newOrdered Int none).limit ≤ 0 ∧
    ∃ m', setOp (fun _ => none) (newOrdered Int none) [99] (7 : Int) = .ok m' :=
  ⟨by decide,
    unbounded_update_preserves_position.1 Int (fun _ => none)
      (newOrdered Int none) [99] 7 (by decide)⟩

/-- C7: after every sequence of `Set`/`Delete`/`Flush` operations starting
from a fresh map, the key set of the hash index equals the key sequence of the
front-to-back list traversal — no duplicates on either side, every key
resolves to the same node record in both (matching values and sizes), and the
two key collections are a permutation of one another (a bijection between
index entries and list nodes). -/
theorem index_list_bijection {V : Type} (asStr : V → Option GoStr)
    (limitMb : Option Int) (ops : List (MapOp V)) :
    (keysOf (runOps asStr (newOrdered V limitMb) ops).kv).Nodup ∧
    (keysOf (runOps asStr (newOrdered V limitMb) ops).ll).Nodup ∧
    (∀ k, kvLookup (runOps asStr (newOrdered V limitMb) ops).kv k =
      kvLookup (runOps asStr (newOrdered V limitMb) ops).ll k) ∧
    (keysOf (runOps asStr (newOrdered V limitMb) ops).kv).Perm
      (keysOf (runOps asStr (newOrdered V limitMb) ops).ll) := by
  obtain ⟨h1, h2, h3⟩ :=
    wf_runOps asStr (newOrdered V limitMb) ops (wf_newOrdered V limitMb)
  exact ⟨h1, h2, h3, wf_keys_perm _ ⟨h1, h2, h3⟩⟩

/-- C8: decoding rejects every stream that does not begin with the exact
4-byte KMAP magic followed by the supported 4-byte version (in particular it
fails whenever magic or version mismatch); and every length-prefixed payload
read validates `0 ≤ length ≤ 2^30` before allocating — failing with the
format error for any length outside that range — and otherwise reads exactly
`length` bytes, failing when fewer are available. -/
theorem header_and_length_validation :
    (∀ s r : List Nat, (∀ b ∈ s, b < 256) →
      (readHeader s = .ok r ↔ s = headerBytes ++ r)) ∧
    (∀ (s : List Nat) (v : Nat) (r : List Nat), readLE 4 s = .ok (v, r) →
      ((int32OfNat v < 0 ∨ 2 ^ 30 < int32OfNat v) →
          readLenPrefixed s = .error "invalid string length") ∧
      (0 ≤ int32OfNat v → int32OfNat v ≤ 2 ^ 30 →
        (r.length < (int32OfNat v).toNat →
          readLenPrefixed s = .error "unexpected EOF") ∧
        ((int32OfNat v).toNat ≤ r.length →
          readLenPrefixed s =
            .ok (r.take (int32OfNat v).toNat, r.drop (int32OfNat v).toNat) ∧
          (r.take (int32OfNat v).toNat).length = (int32OfNat v).toNat))) :=
  ⟨readHeader_ok_iff, readLenPrefixed_spec⟩

/-- C8 witness: an all-zero 8-byte stream is not a valid header (its magic is
not KMAP), and a length prefix decoding to -1 is rejected. -/
theorem header_and_length_validation_witness :
    ((∀ b ∈ ([0, 0, 0, 0, 0, 0, 0, 0] : List Nat), b < 256) ∧
      (readHeader [0, 0, 0, 0, 0, 0, 0, 0] = .ok [] ↔
        ([0, 0, 0, 0, 0, 0, 0, 0] : List Nat) = headerBytes ++ [])) ∧
    (readLE 4 [255, 255, 255, 255] = .ok (4294967295, []) ∧
      ((int32OfNat 4294967295 < 0 ∨ 2 ^ 30 < int32OfNat 4294967295) →
        readLenPrefixed [255, 255, 255, 255] = .error "invalid string length")) :=
  ⟨⟨by decide, header_and_length_validation.1 [0, 0, 0, 0, 0, 0, 0, 0] [] (by decide)⟩,
    ⟨rfl,
      (header_and_length_validation.2 [255, 255, 255, 255] 4294967295 [] rfl).1⟩⟩

/-- C9 (amended): with compression enabled (and a valid level) the bytes
written are the gzip compression of the ENTIRE serialized stream — the
magic+version header included — not an uncompressed header followed by a
compressed remainder; loaders inspect the file's first two bytes against the
gzip signature before any header parsing, decompressing the whole file when
the signature matches and parsing it directly otherwise. -/
theorem compression_wraps_entire_stream {V : Type} (encV : V → List Nat)
    (decV : List Nat → Except String (V × List Nat)) (gz : GzipCodec)
    (m : OrderedMap V) (opts : SaveOptions)
    (hc : opts.compress = true)
    (hlvl : gzipValidLevel
      (if opts.compressLevel = 0 then -1 else opts.compressLevel) = true) :
    (saveToFileWithOptions encV gz false m opts).1 =
      .ok (gz.comp (headerBytes ++ (int64ToBytes m.size ++ (int64ToBytes m.limit ++
        (int64ToBytes (m.kv.length : Int) ++
          (m.ll.map (entryBytes encV)).flatten))))) ∧
    (∀ data : List Nat, gzipSig data = true →
      loadFromFile decV gz data =
        match gz.decomp data with
        | .error e => .error e
        | .ok buf => parseLoad decV buf) ∧
    (∀ data : List Nat, gzipSig data = false →
      loadFromFile decV gz data = parseLoad decV data) := by
  refine ⟨?_, ?_, ?_⟩
  · rw [saveToFileWithOptions_compressed encV gz m opts hc hlvl]
    simp [bodyBytes, List.append_assoc]
  · intro data hsig
    rw [loadFromFile_eq, if_pos hsig]
  · intro data hsig
    rw [loadFromFile_eq, if_neg (by rw [hsig]; exact Bool.false_ne_true)]

/-- C9 counterexample: the compressed save of even an empty map does not begin
with the uncompressed magic+version header — its first bytes are the gzip
signature, and the header only appears inside the compressed payload — so the
written stream is gzip(header ++ body), not header ++ gzip(body). -/
theorem compressed_file_does_not_start_with_header :
    (saveToFileWithOptions writeString toyGzip false (newOrdered GoStr none)
        ⟨true, 0⟩).1 =
      .ok (0x1f :: 0x8b :: bodyBytes writeString (newOrdered GoStr none)) ∧
    (bodyBytes writeString (newOrdered GoStr none)).take 4 =
      [0x50, 0x41, 0x4D, 0x4B] ∧
    (0x1f :: 0x8b :: bodyBytes writeString (newOrdered GoStr none)).take 4 ≠
      [0x50, 0x41, 0x4D, 0x4B] :=
  ⟨rfl, rfl, by decide⟩

/-- C9 amendment witness: the compressed-path clauses at a concrete map and
option set. -/
theorem compression_wraps_entire_stream_witness :
    (⟨true, 0⟩ : SaveOptions).compress = true ∧
    gzipValidLevel (if (⟨true, 0⟩ : SaveOptions).compressLevel = 0 then -1
      else (⟨true, 0⟩ : SaveOptions).compressLevel) = true ∧
    ((saveToFileWithOptions writeString toyGzip false c1Map ⟨true, 0⟩).1 =
      .ok (toyGzip.comp (headerBytes ++ (int64ToBytes c1Map.size ++
        (int64ToBytes c1Map.limit ++ (int64ToBytes (c1Map.kv.length : Int) ++
          (c1Map.ll.map (entryBytes writeString)).flatten))))) ∧
    (∀ data : List Nat, gzipSig data = true →
      loadFromFile readLenPrefixed toyGzip data =
        match toyGzip.decomp data with
        | .error e => .error e
        | .ok buf => parseLoad readLenPrefixed buf) ∧
    (∀ data : List Nat, gzipSig data = false →
      loadFromFile readLenPrefixed toyGzip data = parseLoad readLenPrefixed data)) :=
  ⟨rfl, by decide,
    compression_wraps_entire_stream writeString readLenPrefixed toyGzip c1Map
      ⟨true, 0⟩ rfl (by decide)⟩

/-- C10: `SaveToFileWithOptions` never mutates the receiver: whatever the
options and whether the call succeeds or fails, the map handed back is the
map passed in — same keys, same order, same values, same running total and
limit. -/
theorem save_leaves_map_unchanged {V : Type} (encV : V → List Nat)
    (gz : GzipCodec) (ioFail : Bool) (m : OrderedMap V) (opts : SaveOptions) :
    (saveToFileWithOptions encV gz ioFail m opts).2 = m := by
  rw [saveToFileWithOptions]
  split
  · rfl
  · split
    · split <;> split <;> rfl
    · rfl

end KMap
